import Mathlib

/-
  Verification of the recipe-finder program (src/index.js).

  The JavaScript source is shallowly embedded: JS strings are modelled as
  lists of Unicode code points (JStr := List Nat), JS arrays as Lean lists,
  the insertion-ordered JS Map as an association list whose set operation
  overwrites the value of an existing key in place (as Map.prototype.set
  does), and thrown exceptions as Except values.  Each definition below is
  a direct translation of the correspondingly named function in
  src/index.js; doc comments cite the source lines.
-/

/-- A JS string, modelled as the list of its code points. -/
abbrev JStr := List Nat

/-- Helper for writing concrete JStr inputs from Lean string literals. -/
def jstr (s : String) : JStr := s.data.map Char.toNat

/-- The whitespace test used by String.prototype.trim: we model the common
whitespace and line-terminator code points (TAB, LF, VT, FF, CR, SP, NBSP,
LS, PS, BOM). -/
def isWS (c : Nat) : Bool :=
  decide (c = 9 ∨ c = 10 ∨ c = 11 ∨ c = 12 ∨ c = 13 ∨ c = 32 ∨ c = 160 ∨
          c = 8232 ∨ c = 8233 ∨ c = 65279)

/-- String.prototype.toLowerCase on one code point; the ASCII case mapping
(the only case mapping exercised by this program) is modelled. -/
def jsToLowerChar (c : Nat) : Nat :=
  if 65 ≤ c ∧ c ≤ 90 then c + 32 else c

/-- String.prototype.toLowerCase. -/
def jsToLowerStr (s : JStr) : JStr := s.map jsToLowerChar

/-- String.prototype.trim: remove leading whitespace, then (via reverse)
trailing whitespace. -/
def jsTrim (s : JStr) : JStr :=
  ((s.dropWhile isWS).reverse.dropWhile isWS).reverse

/-- String.prototype.split(",")): split on the comma code point 44;
"".split(",") is [""], so the empty string maps to [[]]. -/
def splitComma : JStr → List JStr
  | [] => [[]]
  | c :: rest =>
    let r := splitComma rest
    if c = 44 then [] :: r
    else
      match r with
      | [] => [[c]]
      | piece :: pieces => (c :: piece) :: pieces

/-- A recipe record as used by the program: src/index.js:86 documents the
shape {idMeal, strMeal, strMealThumb}. -/
structure Meal where
  idMeal : JStr
  strMeal : JStr
  strMealThumb : JStr
deriving DecidableEq

/-- src/index.js:18. -/
def MAX_RESULTS_TO_SHOW : Nat := 10

/-- parseIngredients, src/index.js:47-52: split on comma, trim and
lower-case each piece, drop empty pieces. -/
def parseIngredients (raw : JStr) : List JStr :=
  ((splitComma raw).map (fun s => jsToLowerStr (jsTrim s))).filter
    (fun s => decide (0 < s.length))

/-- The distinct validation failures thrown by validateIngredients
(src/index.js:59-80).  The Array.isArray guard of line 60 is not
representable here: the embedding's argument is a List by type.  Each
constructor stands for the Error thrown with the corresponding message. -/
inductive VError where
  | emptyIngredientList
  | tooManyIngredients
  | ingredientTooShort (token : JStr)
deriving DecidableEq

/-- validateIngredients, src/index.js:59-80.  Note the source guards the
final throw with the JS truthiness test `if (tooShort)`, so a found token
that is the empty string (falsy) does not raise; list emptiness models
falsiness of the found string. -/
def validateIngredients (ingredients : List JStr) : Except VError Unit :=
  if ingredients.length = 0 then Except.error VError.emptyIngredientList
  else if 6 < ingredients.length then Except.error VError.tooManyIngredients
  else
    match ingredients.find? (fun i => decide (i.length < 2)) with
    | some tooShort =>
        if tooShort ≠ [] then Except.error (VError.ingredientTooShort tooShort)
        else Except.ok ()
    | none => Except.ok ()

deriving instance DecidableEq for Except

/-- One step of the reduce in buildMealMap: JS Map.prototype.set, modelled
on an insertion-ordered association list.  Setting an existing key
overwrites its value but keeps the key at its original position; a new key
is appended. -/
def mapSet (m : List (JStr × Meal)) (k : JStr) (v : Meal) :
    List (JStr × Meal) :=
  match m with
  | [] => [(k, v)]
  | (k0, v0) :: rest =>
    if k0 == k then (k0, v) :: rest else (k0, v0) :: mapSet rest k v

/-- buildMealMap, src/index.js:101-106: reduce over the meals, inserting
each under its idMeal. -/
def buildMealMap (meals : List Meal) : List (JStr × Meal) :=
  meals.foldl (fun map meal => mapSet map meal.idMeal meal) []

/-- Array.from(map.values()) for the insertion-ordered map model. -/
def mapValues (m : List (JStr × Meal)) : List Meal := m.map Prod.snd

/-- The dedupe step of main, src/index.js:228-229: build the id-keyed map,
then take its values in insertion order. -/
def dedupe (meals : List Meal) : List Meal := mapValues (buildMealMap meals)

/-- intersectTwoLists, src/index.js:115-119: keep a meal of listA iff some
meal of listB has an equal idMeal. -/
def intersectTwoLists (listA listB : List Meal) : List Meal :=
  listA.filter (fun mealA => listB.any (fun mealB => mealB.idMeal == mealA.idMeal))

/-- intersectAllRecursively, src/index.js:128-137.  The source tests
`index === lists.length - 1`; the test is written here as ≤ so that the
recursion is total also at out-of-range indices (where the JS original
would never return; the program only ever calls it with index 0). -/
def intersectAllRecursively (lists : List (List Meal)) (index : Nat) :
    List Meal :=
  if lists.length = 0 then []
  else if lists.length = 1 then lists.getD 0 []
  else if lists.length - 1 ≤ index then lists.getD index []
  else intersectTwoLists (lists.getD index [])
        (intersectAllRecursively lists (index + 1))
termination_by lists.length - index
decreasing_by
  simp only [not_le] at *
  omega

/-- The suffix semantics of the recursion: intersect a list of lists from
the right.  Used to reason about intersectAllRecursively. -/
def intersectSuffix : List (List Meal) → List Meal
  | [] => []
  | [l] => l
  | l :: ls => intersectTwoLists l (intersectSuffix ls)

/-- Instrumentation of intersectAllRecursively counting how many times the
two-list primitive intersectTwoLists is invoked. -/
def intersectCallCount (lists : List (List Meal)) (index : Nat) : Nat :=
  if lists.length = 0 then 0
  else if lists.length = 1 then 0
  else if lists.length - 1 ≤ index then 0
  else 1 + intersectCallCount lists (index + 1)
termination_by lists.length - index
decreasing_by
  simp only [not_le] at *
  omega

/-- Modelled from the spec (§9, design notes): the iterative left-fold
alternative to the recursive reduction, applying the two-list intersection
primitive repeatedly over the list sequence. -/
def intersectAllIterative (lists : List (List Meal)) : List Meal :=
  match lists with
  | [] => []
  | l :: ls => ls.foldl intersectTwoLists l

/-- Lexicographic comparison by code point, the model of the comparator
`a.strMeal.localeCompare(b.strMeal)` used at src/index.js:155: lexLe x y is
true iff localeCompare would return a non-positive number. -/
def lexLe : JStr → JStr → Bool
  | [], _ => true
  | _ :: _, [] => false
  | a :: as, b :: bs => if a < b then true else if b < a then false else lexLe as bs

/-- The display ordering on meals: by name, ascending. -/
def mealLe (a b : Meal) : Prop := lexLe a.strMeal b.strMeal = true

instance : DecidableRel mealLe := fun a b =>
  inferInstanceAs (Decidable (lexLe a.strMeal b.strMeal = true))

/-- The observable output of displayMeals: whether the no-matches message
was printed, the entries listed, and the remainder count of the
"...and N more" line when it is printed. -/
structure DisplayOutput where
  noMatches : Bool
  shown : List Meal
  moreCount : Option Nat
deriving DecidableEq

/-- displayMeals, src/index.js:144-168, as a pure function from the meal
list to the printed output: empty input prints the no-matches message;
otherwise the meals are copied, sorted by name and the first
MAX_RESULTS_TO_SHOW are listed, with a remainder count when more exist. -/
def displayMeals (meals : List Meal) : DisplayOutput :=
  if meals.length = 0 then ⟨true, [], none⟩
  else
    ⟨false, (List.insertionSort mealLe meals).take MAX_RESULTS_TO_SHOW,
      if MAX_RESULTS_TO_SHOW < meals.length then
        some (meals.length - MAX_RESULTS_TO_SHOW)
      else none⟩

/-- A store of JS array references, for reasoning about which arrays
displayMeals mutates: store maps a reference to the array it holds, and
references below next are the allocated ones. -/
structure HState where
  store : Nat → List Meal
  next : Nat

/-- Allocate a fresh array (what Array.prototype.slice() with no arguments
does), returning its reference. -/
def halloc (s : HState) (v : List Meal) : Nat × HState :=
  (s.next, ⟨fun r => if r = s.next then v else s.store r, s.next + 1⟩)

/-- Overwrite the array held by a reference (what an in-place
Array.prototype.sort does to its receiver). -/
def hwrite (s : HState) (r : Nat) (v : List Meal) : HState :=
  ⟨fun x => if x = r then v else s.store x, s.next⟩

/-- displayMeals, src/index.js:144-168, with the array store made
explicit: meals.slice() allocates a copy, .sort(...) mutates that copy in
place, and .slice(0, MAX_RESULTS_TO_SHOW) reads from it.  The input
reference mealsRef is never written. -/
def displayMealsH (s : HState) (mealsRef : Nat) : DisplayOutput × HState :=
  let meals := s.store mealsRef
  if meals.length = 0 then (⟨true, [], none⟩, s)
  else
    let alloced := halloc s (s.store mealsRef)
    let copyRef := alloced.1
    let s1 := alloced.2
    let s2 := hwrite s1 copyRef (List.insertionSort mealLe (s1.store copyRef))
    (⟨false, (s2.store copyRef).take MAX_RESULTS_TO_SHOW,
      if MAX_RESULTS_TO_SHOW < meals.length then
        some (meals.length - MAX_RESULTS_TO_SHOW)
      else none⟩, s2)

/-- The sequential per-ingredient fetch loop of main, src/index.js:217-221,
abstracted over the lookup adapter: the first failure aborts the loop and
propagates (an exception thrown by an awaited fetch). -/
def fetchAll (lookup : JStr → Except JStr (List Meal)) :
    List JStr → Except JStr (List (List Meal))
  | [] => Except.ok []
  | i :: is =>
    match lookup i with
    | Except.error e => Except.error e
    | Except.ok meals =>
      match fetchAll lookup is with
      | Except.error e => Except.error e
      | Except.ok rest => Except.ok (meals :: rest)

/-- A failure caught by main's try/catch: a validation error or a lookup
(fetch) failure. -/
inductive CycleError where
  | validation (e : VError)
  | lookup (msg : JStr)
deriving DecidableEq

/-- The control-flow outcome of one invocation of main
(src/index.js:199-251): caught records the failure reported by the catch
block (none when the cycle completed), and searchAgain is true iff a new
cycle starts (the recursive `await main()` of line 239).  When the catch
block runs, main falls through to the finally block and returns, so no new
cycle starts. -/
structure CycleOutcome where
  caught : Option CycleError
  searchAgain : Bool
deriving DecidableEq

/-- One invocation of main, src/index.js:199-251, abstracted over the
terminal inputs (the ingredient line and the search-again answer) and the
lookup adapter: parse, validate, fetch each ingredient sequentially,
intersect, dedupe, display, then ask whether to search again.  A thrown
validation or lookup failure is caught, reported, and main returns. -/
def runCycle (input : JStr) (lookup : JStr → Except JStr (List Meal))
    (again : JStr) : CycleOutcome :=
  let ingredients := parseIngredients input
  match validateIngredients ingredients with
  | Except.error e => ⟨some (CycleError.validation e), false⟩
  | Except.ok _ =>
    match fetchAll lookup ingredients with
    | Except.error msg => ⟨some (CycleError.lookup msg), false⟩
    | Except.ok mealLists =>
      let intersection := intersectAllRecursively mealLists 0
      let uniqueMeals := dedupe intersection
      let _ := displayMeals uniqueMeals
      let answer := jsToLowerStr (jsTrim again)
      ⟨none, answer == jstr "y" || answer == jstr "yes"⟩

/-- Reference description of the dedupe step, stated directly by
recursion: the representative emitted at the position of the first
occurrence of an identifier is the last record carrying that identifier
(JS Map.prototype.set overwrites the value of a seen key in place). -/
def dedupeRef : List Meal → List Meal
  | [] => []
  | x :: xs =>
    (xs.filter (fun y => y.idMeal == x.idMeal)).getLastD x ::
      dedupeRef (xs.filter (fun y => !(y.idMeal == x.idMeal)))
termination_by l => l.length
decreasing_by
  simp only [List.length_cons]
  exact Nat.lt_succ_of_le (List.length_filter_le _ _)

/-- Fifteen distinct demo recipes used by witnesses. -/
def demoMeals15 : List Meal := (List.range 15).map (fun i => ⟨[i], [i], []⟩)

/-! ### Generic list lemmas -/

theorem dropWhile_self {α : Type} (p : α → Bool) (l : List α) :
    (l.dropWhile p).dropWhile p = l.dropWhile p := by
  induction l with
  | nil => rfl
  | cons c cs ih =>
    by_cases h : p c = true
    · simp [List.dropWhile_cons, h, ih]
    · simp [List.dropWhile_cons, h]

theorem dropWhile_append_elim {α : Type} (p : α → Bool) (xs ys : List α)
    (h : (xs ++ ys).dropWhile p = xs ++ ys) : xs.dropWhile p = xs := by
  cases xs with
  | nil => rfl
  | cons c cs =>
    by_cases hc : p c = true
    · exfalso
      rw [List.cons_append, List.dropWhile_cons, if_pos hc] at h
      have := congrArg List.length h
      have hle : ((cs ++ ys).dropWhile p).length ≤ (cs ++ ys).length :=
        (List.dropWhile_sublist (p := p) (l := cs ++ ys)).length_le
      simp [List.length_append] at this hle
      omega
    · simp [List.dropWhile_cons, hc]

theorem dropWhile_rev_dropWhile {α : Type} (p : α → Bool) (r : List α)
    (h : r.reverse.dropWhile p = r.reverse) :
    (r.dropWhile p).reverse.dropWhile p = (r.dropWhile p).reverse := by
  induction r with
  | nil => rfl
  | cons c cs ih =>
    by_cases hc : p c = true
    · rw [List.dropWhile_cons, if_pos hc]
      apply ih
      rw [List.reverse_cons] at h
      exact dropWhile_append_elim p cs.reverse [c] h
    · rw [List.dropWhile_cons, if_neg hc]
      exact h

/-! ### Lemmas about the string operations -/

theorem isWS_jsToLowerChar (c : Nat) : isWS (jsToLowerChar c) = isWS c := by
  unfold jsToLowerChar isWS
  by_cases h : 65 ≤ c ∧ c ≤ 90
  · rw [if_pos h]
    simp only [decide_eq_decide]
    omega
  · rw [if_neg h]

theorem jsToLowerChar_idem (c : Nat) :
    jsToLowerChar (jsToLowerChar c) = jsToLowerChar c := by
  unfold jsToLowerChar
  by_cases h : 65 ≤ c ∧ c ≤ 90
  · rw [if_pos h, if_neg (by omega)]
  · rw [if_neg h, if_neg h]

theorem jsToLowerStr_idem (s : JStr) :
    jsToLowerStr (jsToLowerStr s) = jsToLowerStr s := by
  unfold jsToLowerStr
  rw [List.map_map]
  exact List.map_congr_left (fun c _ => jsToLowerChar_idem c)

theorem dropWhile_isWS_map_lower (l : JStr) :
    (l.map jsToLowerChar).dropWhile isWS = (l.dropWhile isWS).map jsToLowerChar := by
  induction l with
  | nil => rfl
  | cons c cs ih =>
    rw [List.map_cons, List.dropWhile_cons, List.dropWhile_cons,
      isWS_jsToLowerChar]
    by_cases h : isWS c = true
    · rw [if_pos h, if_pos h, ih]
    · rw [if_neg h, if_neg h, List.map_cons]

theorem jsTrim_jsToLowerStr (s : JStr) :
    jsTrim (jsToLowerStr s) = jsToLowerStr (jsTrim s) := by
  unfold jsTrim jsToLowerStr
  rw [dropWhile_isWS_map_lower, ← List.map_reverse, dropWhile_isWS_map_lower,
    ← List.map_reverse]

theorem jsTrim_idem (s : JStr) : jsTrim (jsTrim s) = jsTrim s := by
  unfold jsTrim
  set u := s.dropWhile isWS with hu
  have hufix : u.dropWhile isWS = u := by rw [hu]; exact dropWhile_self _ _
  set w := u.reverse.dropWhile isWS with hw
  have h1 : w.reverse.dropWhile isWS = w.reverse := by
    rw [hw]
    exact dropWhile_rev_dropWhile isWS u.reverse (by rw [List.reverse_reverse]; exact hufix)
  rw [h1, List.reverse_reverse, hw, dropWhile_self]

theorem jsTrim_token_fix (s : JStr) :
    jsTrim (jsToLowerStr (jsTrim s)) = jsToLowerStr (jsTrim s) := by
  rw [jsTrim_jsToLowerStr, jsTrim_idem]

theorem jsToLowerStr_token_fix (s : JStr) :
    jsToLowerStr (jsToLowerStr (jsTrim s)) = jsToLowerStr (jsTrim s) :=
  jsToLowerStr_idem _

/-- Every token produced by parseIngredients is the trimmed lower-cased
form of some comma-piece and is nonempty. -/
theorem parseIngredients_token (raw t : JStr) (ht : t ∈ parseIngredients raw) :
    jsToLowerStr t = t ∧ jsTrim t = t ∧ t ≠ [] := by
  unfold parseIngredients at ht
  have h1 := List.mem_filter.mp ht
  obtain ⟨piece, hp, heq⟩ := List.mem_map.mp h1.1
  have hne : t ≠ [] := by
    have := of_decide_eq_true h1.2
    intro hnil
    rw [hnil] at this
    simp at this
  refine ⟨?_, ?_, hne⟩
  · rw [← heq]
    exact jsToLowerStr_token_fix piece
  · rw [← heq]
    exact jsTrim_token_fix piece

/-- C6: for every raw input string, every token of parseIngredients is
lower-case (lower-casing it changes nothing), has no leading or trailing
whitespace (trimming it changes nothing) and is nonempty; and the output
is a sublist of the trimmed lower-cased comma-pieces in input order (so
surviving tokens keep their order of appearance, with no reordering and no
dedup). -/
theorem c6_parse_normalization (raw : JStr) :
    (∀ t ∈ parseIngredients raw, jsToLowerStr t = t ∧ jsTrim t = t ∧ t ≠ []) ∧
    (parseIngredients raw).Sublist
      ((splitComma raw).map (fun s => jsToLowerStr (jsTrim s))) :=
  ⟨fun t ht => parseIngredients_token raw t ht, List.filter_sublist _⟩

/-- Witness for C6 at the concrete input " Chicken , RICE". -/
theorem c6_parse_normalization_witness :
    jsToLowerStr (jstr "chicken") = jstr "chicken" ∧
    jsTrim (jstr "chicken") = jstr "chicken" ∧ jstr "chicken" ≠ [] :=
  (c6_parse_normalization (jstr " Chicken , RICE")).1 (jstr "chicken") (by decide)

/-! ### Lemmas about validateIngredients -/

theorem validate_empty_iff (ts : List JStr) :
    validateIngredients ts = Except.error VError.emptyIngredientList ↔ ts = [] := by
  unfold validateIngredients
  split_ifs with h1 h2
  · simp [List.length_eq_zero] at h1
    simp [h1]
  · constructor
    · intro h
      exact absurd h (by simp)
    · intro h
      rw [h] at h2
      simp at h2
  · cases hf : ts.find? (fun i => decide (i.length < 2)) with
    | none =>
      simp [hf]
      intro h
      rw [h] at h1
      simp at h1
    | some t =>
      simp [hf]
      constructor
      · intro h
        split_ifs at h
        simp_all
      · intro h
        rw [h] at h1
        simp at h1

theorem validate_toomany_iff (ts : List JStr) :
    validateIngredients ts = Except.error VError.tooManyIngredients ↔ 6 < ts.length := by
  unfold validateIngredients
  split_ifs with h1 h2
  · simp [h1]
  · simp [h2]
  · cases hf : ts.find? (fun i => decide (i.length < 2)) with
    | none => simp [hf, h2]
    | some t =>
      simp only [hf, h2, iff_false]
      split_ifs <;> simp

theorem validate_short_elim (ts : List JStr) (t : JStr)
    (h : validateIngredients ts = Except.error (VError.ingredientTooShort t)) :
    t ∈ ts ∧ t.length < 2 ∧ t ≠ [] ∧ ts.length ≤ 6 := by
  unfold validateIngredients at h
  split_ifs at h with h1 h2
  · simp at h
  · simp at h
  · cases hf : ts.find? (fun i => decide (i.length < 2)) with
    | none =>
      rw [hf] at h
      simp at h
    | some t0 =>
      simp only [hf] at h
      split_ifs at h with h3
      have h4 : t0 = t := by simpa using h
      have hp := List.find?_some hf
      rw [← h4]
      exact ⟨List.mem_of_find?_eq_some hf, of_decide_eq_true hp, h3, by omega⟩

theorem validate_short_intro (ts : List JStr) (hlen : ts.length ≤ 6)
    (hex : ∃ t ∈ ts, t.length < 2) (hne : ∀ t ∈ ts, t ≠ []) :
    ∃ t, validateIngredients ts = Except.error (VError.ingredientTooShort t) := by
  have hsome : (ts.find? (fun i => decide (i.length < 2))).isSome := by
    rw [List.find?_isSome]
    obtain ⟨t, ht, hlt⟩ := hex
    exact ⟨t, ht, by simpa using hlt⟩
  cases hf : ts.find? (fun i => decide (i.length < 2)) with
  | none =>
    rw [hf] at hsome
    simp at hsome
  | some t0 =>
    refine ⟨t0, ?_⟩
    have hts : ts ≠ [] := by
      obtain ⟨t, ht, _⟩ := hex
      intro hnil
      rw [hnil] at ht
      simp at ht
    unfold validateIngredients
    rw [if_neg (by simp [List.length_eq_zero]; exact hts), if_neg (by omega)]
    simp only [hf]
    rw [if_pos (hne t0 (List.mem_of_find?_eq_some hf))]

theorem validate_ok_iff (ts : List JStr) (hne : ∀ t ∈ ts, t ≠ []) :
    validateIngredients ts = Except.ok () ↔
      ts ≠ [] ∧ ts.length ≤ 6 ∧ ∀ t ∈ ts, 2 ≤ t.length := by
  unfold validateIngredients
  split_ifs with h1 h2
  · simp only [List.length_eq_zero] at h1
    simp [h1]
  · constructor
    · intro h
      simp at h
    · intro h
      omega
  · cases hf : ts.find? (fun i => decide (i.length < 2)) with
    | none =>
      rw [List.find?_eq_none] at hf
      simp [List.length_eq_zero] at h1
      constructor
      · intro _
        refine ⟨h1, by omega, fun t ht => ?_⟩
        have := hf t ht
        simp at this
        omega
      · intro _
        rfl
    | some t0 =>
      simp only [hf]
      rw [if_pos (hne t0 (List.mem_of_find?_eq_some hf))]
      constructor
      · intro h
        simp at h
      · intro h
        have h2 := h.2.2 t0 (List.mem_of_find?_eq_some hf)
        have hp := List.find?_some hf
        have h3 := of_decide_eq_true hp
        omega

/-- C5 (amended): on every token list produced by parse, validate fails
with EmptyIngredientList iff there are zero tokens; fails with
TooManyIngredients iff the token count exceeds 6; fails with
IngredientTooShort, carrying an offending token, iff some token has length
less than 2 AND the token count is at most 6 (the checks run in that
order, so an over-long list wins over a short token); and succeeds
otherwise. -/
theorem c5_validate_characterization (raw : JStr) :
    (validateIngredients (parseIngredients raw) =
        Except.error VError.emptyIngredientList ↔ parseIngredients raw = []) ∧
    (validateIngredients (parseIngredients raw) =
        Except.error VError.tooManyIngredients ↔ 6 < (parseIngredients raw).length) ∧
    (∀ t, validateIngredients (parseIngredients raw) =
        Except.error (VError.ingredientTooShort t) →
        t ∈ parseIngredients raw ∧ t.length < 2) ∧
    ((∃ t ∈ parseIngredients raw, t.length < 2) ∧
        (parseIngredients raw).length ≤ 6 ↔
      ∃ t, validateIngredients (parseIngredients raw) =
        Except.error (VError.ingredientTooShort t)) ∧
    (validateIngredients (parseIngredients raw) = Except.ok () ↔
      parseIngredients raw ≠ [] ∧ (parseIngredients raw).length ≤ 6 ∧
        ∀ t ∈ parseIngredients raw, 2 ≤ t.length) := by
  have hne : ∀ t ∈ parseIngredients raw, t ≠ [] :=
    fun t ht => (parseIngredients_token raw t ht).2.2
  refine ⟨validate_empty_iff _, validate_toomany_iff _, ?_, ⟨?_, ?_⟩, validate_ok_iff _ hne⟩
  · intro t h
    have := validate_short_elim _ t h
    exact ⟨this.1, this.2.1⟩
  · intro h
    exact validate_short_intro _ h.2 h.1 hne
  · intro h
    obtain ⟨t, ht⟩ := h
    have := validate_short_elim _ t ht
    exact ⟨⟨t, this.1, this.2.1⟩, this.2.2.2⟩

/-- Counterexample to C5 as stated: the parse output of
"a, bb, cc, dd, ee, ff, gg" contains the token "a" of length 1, yet
validate does not fail with IngredientTooShort: it fails with
TooManyIngredients, because the count check runs first. -/
theorem c5_counterexample :
    validateIngredients (parseIngredients (jstr "a, bb, cc, dd, ee, ff, gg")) =
        Except.error VError.tooManyIngredients ∧
    jstr "a" ∈ parseIngredients (jstr "a, bb, cc, dd, ee, ff, gg") ∧
    (jstr "a").length < 2 ∧
    Except.error VError.tooManyIngredients ≠
      (Except.error (VError.ingredientTooShort (jstr "a")) : Except VError Unit) := by
  decide

/-- Witness for C5 at concrete inputs: "chicken, rice" validates, and
"a, bb" fails with IngredientTooShort. -/
theorem c5_validate_characterization_witness :
    validateIngredients (parseIngredients (jstr "chicken, rice")) = Except.ok () ∧
    (∃ t, validateIngredients (parseIngredients (jstr "a, bb")) =
      Except.error (VError.ingredientTooShort t)) :=
  ⟨(c5_validate_characterization (jstr "chicken, rice")).2.2.2.2.mpr
      ⟨by decide, by decide, by decide⟩,
    (c5_validate_characterization (jstr "a, bb")).2.2.2.1.mp
      ⟨⟨jstr "a", by decide, by decide⟩, by decide⟩⟩

/-! ### Lemmas about the intersection engine -/

theorem intersectSuffix_cons (l : List Meal) (ls : List (List Meal)) (h : ls ≠ []) :
    intersectSuffix (l :: ls) = intersectTwoLists l (intersectSuffix ls) := by
  cases ls with
  | nil => exact absurd rfl h
  | cons L ls => rfl

theorem intersectAll_eq_suffix (lists : List (List Meal)) (index : Nat)
    (h : index < lists.length) :
    intersectAllRecursively lists index = intersectSuffix (lists.drop index) := by
  have main : ∀ n index, lists.length - index ≤ n → index < lists.length →
      intersectAllRecursively lists index = intersectSuffix (lists.drop index) := by
    intro n
    induction n with
    | zero =>
      intro index h1 h2
      omega
    | succ n ih =>
      intro index h1 h2
      rw [intersectAllRecursively]
      by_cases hz : lists.length = 0
      · omega
      · rw [if_neg hz]
        by_cases ho : lists.length = 1
        · rw [if_pos ho]
          have hidx : index = 0 := by omega
          subst hidx
          rw [List.drop_zero]
          cases lists with
          | nil => simp at ho
          | cons l ls =>
            simp at ho
            subst ho
            rfl
        · rw [if_neg ho]
          by_cases hlast : lists.length - 1 ≤ index
          · rw [if_pos hlast]
            have hidx : index = lists.length - 1 := by omega
            rw [List.getD_eq_getElem lists [] h2,
              List.drop_eq_getElem_cons h2]
            have hnil : lists.drop (index + 1) = [] := by
              rw [List.drop_eq_nil_iff]
              omega
            rw [hnil]
            rfl
          · rw [if_neg hlast]
            rw [ih (index + 1) (by omega) (by omega)]
            rw [List.drop_eq_getElem_cons h2,
              List.getD_eq_getElem lists [] h2]
            rw [intersectSuffix_cons]
            intro hc
            rw [List.drop_eq_nil_iff] at hc
            omega
  exact main (lists.length - index) index (by omega) h

theorem intersectAll_zero (lists : List (List Meal)) :
    intersectAllRecursively lists 0 = intersectSuffix lists := by
  cases lists with
  | nil => rw [intersectAllRecursively]; rfl
  | cons l ls =>
    rw [intersectAll_eq_suffix (l :: ls) 0 (by simp), List.drop_zero]

theorem anyId_filter (L : List Meal) (ls : List (List Meal)) (x : JStr) :
    ((L.filter (fun b => ls.all (fun M => M.any (fun c => c.idMeal == b.idMeal)))).any
        (fun b => b.idMeal == x)) =
      (L.any (fun b => b.idMeal == x) &&
        ls.all (fun M => M.any (fun c => c.idMeal == x))) := by
  rw [List.any_filter, Bool.eq_iff_iff]
  simp only [List.any_eq_true, List.all_eq_true, Bool.and_eq_true, beq_iff_eq]
  constructor
  · rintro ⟨b, hbL, hall, hbx⟩
    refine ⟨⟨b, hbL, hbx⟩, fun M hM => ?_⟩
    obtain ⟨c, hc, hcb⟩ := hall M hM
    exact ⟨c, hc, by rw [hcb, hbx]⟩
  · rintro ⟨⟨b, hbL, hbx⟩, hall⟩
    refine ⟨b, hbL, fun M hM => ?_, hbx⟩
    obtain ⟨c, hc, hcx⟩ := hall M hM
    exact ⟨c, hc, by rw [hcx, hbx]⟩

theorem intersectSuffix_filter (l : List Meal) (ls : List (List Meal)) :
    intersectSuffix (l :: ls) =
      l.filter (fun a => ls.all (fun L => L.any (fun b => b.idMeal == a.idMeal))) := by
  induction ls generalizing l with
  | nil => simp [intersectSuffix]
  | cons L ls ih =>
    rw [intersectSuffix_cons l (L :: ls) (by simp), ih L]
    unfold intersectTwoLists
    congr 1
    funext a
    rw [anyId_filter]
    simp [List.all_cons]

theorem foldl_intersect_filter (ls : List (List Meal)) (l : List Meal) :
    ls.foldl intersectTwoLists l =
      l.filter (fun a => ls.all (fun L => L.any (fun b => b.idMeal == a.idMeal))) := by
  induction ls generalizing l with
  | nil => simp
  | cons L ls ih =>
    rw [List.foldl_cons, ih]
    unfold intersectTwoLists
    rw [List.filter_filter]
    congr 1
    funext a
    simp [List.all_cons, Bool.and_comm]

/-- C9: intersectAll satisfies its base-case identities: the empty
sequence of lists yields the empty list and a singleton sequence [L]
yields L itself unchanged (any duplicate identifiers and the original
order included); in both cases the two-list primitive is never invoked
(the instrumented call count is 0). -/
theorem c9_base_case_identities :
    intersectAllRecursively [] 0 = [] ∧ intersectCallCount [] 0 = 0 ∧
    ∀ L : List Meal,
      intersectAllRecursively [L] 0 = L ∧ intersectCallCount [L] 0 = 0 := by
  refine ⟨?_, ?_, fun L => ⟨?_, ?_⟩⟩
  · rw [intersectAllRecursively]
    rfl
  · rw [intersectCallCount]
    rfl
  · rw [intersectAllRecursively]
    rfl
  · rw [intersectCallCount]
    rfl

/-- C4: for every sequence of two or more recipe lists, intersectAll is
the first (leftmost) list filtered down to the records whose identifier
occurs in every other list, so the survivors keep exactly the relative
order they had in the first list (the result is a sublist of it). -/
theorem c4_first_list_order (l L : List Meal) (ls : List (List Meal)) :
    intersectAllRecursively (l :: L :: ls) 0 =
      l.filter (fun a =>
        (L :: ls).all (fun M => M.any (fun b => b.idMeal == a.idMeal))) ∧
    (intersectAllRecursively (l :: L :: ls) 0).Sublist l := by
  have h := intersectAll_zero (l :: L :: ls)
  rw [h, intersectSuffix_filter]
  exact ⟨rfl, List.filter_sublist l⟩

/-- C7: the right-to-left recursive reduction computes the same output
(same records, same order) as an iterative left-fold over the list
sequence applying the two-list intersection primitive. -/
theorem c7_recursion_foldl_equiv (lists : List (List Meal)) :
    intersectAllRecursively lists 0 = intersectAllIterative lists := by
  cases lists with
  | nil =>
    rw [intersectAll_zero]
    rfl
  | cons l ls =>
    rw [intersectAll_zero]
    show intersectSuffix (l :: ls) = ls.foldl intersectTwoLists l
    rw [intersectSuffix_filter, foldl_intersect_filter]

/-! ### Lemmas about the dedupe step -/

theorem getLastD_id (l : List Meal) (d : Meal) (k : JStr)
    (hl : ∀ y ∈ l, y.idMeal = k) (hd : d.idMeal = k) :
    (l.getLastD d).idMeal = k := by
  induction l generalizing d with
  | nil => exact hd
  | cons a l ih =>
    rw [List.getLastD_cons]
    exact ih a (fun y hy => hl y (List.mem_cons_of_mem a hy))
      (hl a (List.mem_cons_self a l))

theorem mapSet_cons_eq (k : JStr) (v : Meal) (m : List (JStr × Meal))
    (a : JStr) (b : Meal) (h : k = a) :
    mapSet ((k, v) :: m) a b = (k, b) :: m := by
  show (if k == a then (k, b) :: m else (k, v) :: mapSet m a b) = (k, b) :: m
  rw [if_pos (beq_iff_eq.mpr h)]

theorem mapSet_cons_ne (k : JStr) (v : Meal) (m : List (JStr × Meal))
    (a : JStr) (b : Meal) (h : k ≠ a) :
    mapSet ((k, v) :: m) a b = (k, v) :: mapSet m a b := by
  show (if k == a then (k, b) :: m else (k, v) :: mapSet m a b)
      = (k, v) :: mapSet m a b
  rw [if_neg]
  simp only [beq_iff_eq]
  exact h

theorem foldl_mapSet_cons (xs : List Meal) (k : JStr) (v : Meal)
    (m : List (JStr × Meal)) :
    xs.foldl (fun map meal => mapSet map meal.idMeal meal) ((k, v) :: m) =
      (k, (xs.filter (fun y => y.idMeal == k)).getLastD v) ::
        (xs.filter (fun y => !(y.idMeal == k))).foldl
          (fun map meal => mapSet map meal.idMeal meal) m := by
  induction xs generalizing v m with
  | nil => simp
  | cons y xs ih =>
    rw [List.foldl_cons]
    by_cases hy : y.idMeal = k
    · have hbeq : (y.idMeal == k) = true := beq_iff_eq.mpr hy
      rw [mapSet_cons_eq k v m y.idMeal y hy.symm, ih y m,
        List.filter_cons, List.filter_cons, hbeq]
      simp only [Bool.not_true, if_true, if_false, List.getLastD_cons]
      rfl
    · have hbeq : (y.idMeal == k) = false := by
        rw [beq_eq_false_iff_ne]
        exact hy
      rw [mapSet_cons_ne k v m y.idMeal y (fun hc => hy hc.symm),
        ih v (mapSet m y.idMeal y), List.filter_cons, List.filter_cons, hbeq]
      simp only [Bool.not_false, if_true, if_false]
      rfl

theorem dedupe_cons (x : Meal) (xs : List Meal) :
    dedupe (x :: xs) =
      (xs.filter (fun y => y.idMeal == x.idMeal)).getLastD x ::
        dedupe (xs.filter (fun y => !(y.idMeal == x.idMeal))) := by
  unfold dedupe buildMealMap
  rw [List.foldl_cons]
  have hstep : mapSet [] x.idMeal x = [(x.idMeal, x)] := rfl
  rw [hstep, foldl_mapSet_cons]
  rfl

theorem dedupe_eq_dedupeRef (xs : List Meal) : dedupe xs = dedupeRef xs := by
  have main : ∀ n (xs : List Meal), xs.length ≤ n → dedupe xs = dedupeRef xs := by
    intro n
    induction n with
    | zero =>
      intro xs h
      cases xs with
      | nil =>
        rw [dedupeRef]
        rfl
      | cons x xs => simp at h
    | succ n ih =>
      intro xs h
      cases xs with
      | nil =>
        rw [dedupeRef]
        rfl
      | cons x xs =>
        rw [dedupe_cons, dedupeRef]
        congr 1
        refine ih _ ?_
        simp at h
        exact le_trans (List.length_filter_le _ _) h
  exact main xs.length xs le_rfl

theorem hasId_dedupe (xs : List Meal) (i : JStr) :
    (dedupe xs).any (fun m => m.idMeal == i) = xs.any (fun m => m.idMeal == i) := by
  have main : ∀ n (xs : List Meal), xs.length ≤ n →
      (dedupe xs).any (fun m => m.idMeal == i) =
        xs.any (fun m => m.idMeal == i) := by
    intro n
    induction n with
    | zero =>
      intro xs h
      cases xs with
      | nil => rfl
      | cons x xs => simp at h
    | succ n ih =>
      intro xs h
      cases xs with
      | nil => rfl
      | cons x xs =>
        rw [dedupe_cons, List.any_cons, List.any_cons]
        have hid : ((xs.filter (fun y => y.idMeal == x.idMeal)).getLastD x).idMeal
            = x.idMeal := by
          refine getLastD_id _ _ _ (fun y hy => ?_) rfl
          have := List.of_mem_filter hy
          exact beq_iff_eq.mp this
        rw [hid]
        simp at h
        rw [ih (xs.filter (fun y => !(y.idMeal == x.idMeal)))
          (le_trans (List.length_filter_le _ _) h)]
        by_cases hxi : x.idMeal = i
        · simp [hxi]
        · have hx : (x.idMeal == i) = false := beq_eq_false_iff_ne.mpr hxi
          rw [hx, Bool.false_or, Bool.false_or, List.any_filter]
          congr 1
          funext y
          by_cases hyi : y.idMeal = i
          · have : (y.idMeal == x.idMeal) = false := by
              rw [beq_eq_false_iff_ne]
              rw [hyi]
              intro hc
              exact hxi hc.symm
            simp [this, hyi]
            exact fun hc => hxi hc.symm
          · simp [beq_eq_false_iff_ne.mpr hyi]
  exact main xs.length xs le_rfl

theorem filter_getLastD_id (x : Meal) (xs : List Meal) :
    ((xs.filter (fun y => y.idMeal == x.idMeal)).getLastD x).idMeal = x.idMeal := by
  refine getLastD_id _ _ _ (fun y hy => ?_) rfl
  have hp := List.of_mem_filter hy
  exact beq_iff_eq.mp hp

theorem dedupeRef_id_mem (xs : List Meal) (m : Meal) (hm : m ∈ dedupeRef xs) :
    m.idMeal ∈ xs.map (fun y => y.idMeal) := by
  have main : ∀ n (xs : List Meal) (m : Meal), xs.length ≤ n → m ∈ dedupeRef xs →
      m.idMeal ∈ xs.map (fun y => y.idMeal) := by
    intro n
    induction n with
    | zero =>
      intro xs m h hm
      cases xs with
      | nil =>
        rw [dedupeRef] at hm
        simp at hm
      | cons x xs => simp at h
    | succ n ih =>
      intro xs m h hm
      cases xs with
      | nil =>
        rw [dedupeRef] at hm
        simp at hm
      | cons x xs =>
        rw [dedupeRef] at hm
        rcases List.mem_cons.mp hm with heq | htl
        · rw [heq, filter_getLastD_id]
          simp
        · simp at h
          have := ih (xs.filter (fun y => !(y.idMeal == x.idMeal))) m
            (le_trans (List.length_filter_le _ _) h) htl
          rw [List.mem_map] at this
          obtain ⟨y, hy, hyid⟩ := this
          rw [List.mem_map]
          exact ⟨y, List.mem_cons_of_mem x (List.mem_of_mem_filter hy), hyid⟩
  exact main xs.length xs m le_rfl hm

theorem dedupeRef_ids_nodup (xs : List Meal) :
    ((dedupeRef xs).map (fun m => m.idMeal)).Nodup := by
  have main : ∀ n (xs : List Meal), xs.length ≤ n →
      ((dedupeRef xs).map (fun m => m.idMeal)).Nodup := by
    intro n
    induction n with
    | zero =>
      intro xs h
      cases xs with
      | nil =>
        rw [dedupeRef]
        simp
      | cons x xs => simp at h
    | succ n ih =>
      intro xs h
      cases xs with
      | nil =>
        rw [dedupeRef]
        simp
      | cons x xs =>
        rw [dedupeRef, List.map_cons, filter_getLastD_id, List.nodup_cons]
        simp at h
        refine ⟨?_, ih _ (le_trans (List.length_filter_le _ _) h)⟩
        intro hmem
        rw [List.mem_map] at hmem
        obtain ⟨m, hm, hmid⟩ := hmem
        have := dedupeRef_id_mem _ m hm
        rw [List.mem_map] at this
        obtain ⟨y, hy, hyid⟩ := this
        have hpred := List.of_mem_filter hy
        rw [Bool.not_eq_true', beq_eq_false_iff_ne] at hpred
        exact hpred (by rw [hyid, hmid])
  exact main xs.length xs le_rfl

/-- C2 (amended): dedupe emits one representative per identifier (the
output identifiers are pairwise distinct), positioned at the first
occurrence of that identifier; but the representative kept for each
identifier is the LAST record seen with it, not the first: a later entry
with an already-seen identifier overwrites the earlier record's value
while keeping its position, exactly as described by dedupeRef. -/
theorem c2_dedupe_first_position_last_value (xs : List Meal) :
    dedupe xs = dedupeRef xs ∧ ((dedupe xs).map (fun m => m.idMeal)).Nodup :=
  ⟨dedupe_eq_dedupeRef xs, by
    rw [dedupe_eq_dedupeRef]
    exact dedupeRef_ids_nodup xs⟩

/-- Counterexample to C2 as stated: two records share the identifier [49]
but differ in name ([65] vs [66]); dedupe keeps the SECOND record, not the
first-seen one. -/
theorem c2_counterexample :
    dedupe [⟨[49], [65], []⟩, ⟨[49], [66], []⟩] = [⟨[49], [66], []⟩] ∧
    dedupe [⟨[49], [65], []⟩, ⟨[49], [66], []⟩] ≠ [⟨[49], [65], []⟩] := by
  decide

/-- C1: for every nonempty sequence of recipe lists, an identifier occurs
in the deduplicated intersection output iff it occurs in every input list
(the identifier set is exactly the set-intersection), and dedupe leaves
the identifier set of the raw intersection unchanged (only cardinality can
change). -/
theorem c1_intersection_id_set (l : List Meal) (ls : List (List Meal)) (i : JStr) :
    ((dedupe (intersectAllRecursively (l :: ls) 0)).any (fun m => m.idMeal == i) =
      (l :: ls).all (fun L => L.any (fun m => m.idMeal == i))) ∧
    ((dedupe (intersectAllRecursively (l :: ls) 0)).any (fun m => m.idMeal == i) =
      (intersectAllRecursively (l :: ls) 0).any (fun m => m.idMeal == i)) := by
  have h2 := hasId_dedupe (intersectAllRecursively (l :: ls) 0) i
  refine ⟨?_, h2⟩
  rw [h2, intersectAll_zero, intersectSuffix_filter, anyId_filter, List.all_cons]

/-! ### Lemmas about the presenter -/

theorem lexLe_total (x y : JStr) : lexLe x y = true ∨ lexLe y x = true := by
  induction x generalizing y with
  | nil => left; rfl
  | cons a as ih =>
    cases y with
    | nil => right; rfl
    | cons b bs =>
      by_cases hab : a < b
      · left
        unfold lexLe
        rw [if_pos hab]
      · by_cases hba : b < a
        · right
          unfold lexLe
          rw [if_pos hba]
        · have hab2 : a = b := by omega
          subst hab2
          rcases ih bs with h | h
          · left
            unfold lexLe
            rw [if_neg (by omega), if_neg (by omega)]
            exact h
          · right
            unfold lexLe
            rw [if_neg (by omega), if_neg (by omega)]
            exact h

theorem lexLe_trans (x y z : JStr) (h1 : lexLe x y = true) (h2 : lexLe y z = true) :
    lexLe x z = true := by
  induction x generalizing y z with
  | nil => rfl
  | cons a as ih =>
    cases y with
    | nil => simp [lexLe] at h1
    | cons b bs =>
      cases z with
      | nil => simp [lexLe] at h2
      | cons c cs =>
        unfold lexLe at h1 h2 ⊢
        by_cases hab : a < b
        · rw [if_pos hab] at h1
          by_cases hbc : b < c
          · rw [if_pos (by omega)]
          · by_cases hcb : c < b
            · rw [if_neg hbc, if_pos hcb] at h2
              simp at h2
            · have : b = c := by omega
              subst this
              rw [if_pos hab]
        · by_cases hba : b < a
          · rw [if_neg hab, if_pos hba] at h1
            simp at h1
          · have : a = b := by omega
            subst this
            by_cases hbc : a < c
            · rw [if_pos hbc]
            · by_cases hcb : c < a
              · rw [if_neg hbc, if_pos hcb] at h2
                simp at h2
              · have : a = c := by omega
                subst this
                rw [if_neg (by omega), if_neg (by omega)] at h1 h2 ⊢
                exact ih bs cs h1 h2

instance : IsTotal Meal mealLe :=
  ⟨fun a b => lexLe_total a.strMeal b.strMeal⟩

instance : IsTrans Meal mealLe :=
  ⟨fun a b c h1 h2 => lexLe_trans a.strMeal b.strMeal c.strMeal h1 h2⟩

/-- C8: present sorts the deduplicated result alphabetically by display
name ascending and shows at most 10 entries, all drawn from the input;
with more than 10 recipes it shows exactly 10 and reports the remainder
count (15 distinct gives 10 shown and "5 more"); with no recipes it shows
the explicit no-matches output rather than an empty listing. -/
theorem c8_display_truncation (ms : List Meal) :
    (ms = [] → displayMeals ms = ⟨true, [], none⟩) ∧
    (displayMeals ms).shown.length ≤ 10 ∧
    List.Sorted mealLe (displayMeals ms).shown ∧
    (∀ m ∈ (displayMeals ms).shown, m ∈ ms) ∧
    (10 < ms.length →
      (displayMeals ms).shown.length = 10 ∧
      (displayMeals ms).moreCount = some (ms.length - 10)) ∧
    (ms.length ≤ 10 → (displayMeals ms).moreCount = none) := by
  unfold displayMeals MAX_RESULTS_TO_SHOW
  by_cases h0 : ms.length = 0
  · rw [if_pos h0]
    rw [List.length_eq_zero] at h0
    subst h0
    refine ⟨fun _ => rfl, by simp, by simp [List.Sorted], by simp, ?_, fun _ => rfl⟩
    intro h
    simp at h
  · rw [if_neg h0]
    have hlen : (List.insertionSort mealLe ms).length = ms.length :=
      (List.perm_insertionSort mealLe ms).length_eq
    refine ⟨?_, ?_, ?_, ?_, ?_, ?_⟩
    · intro h
      subst h
      simp at h0
    · simp [List.length_take, hlen]
    · exact List.Pairwise.sublist (List.take_sublist 10 _)
        (List.sorted_insertionSort mealLe ms)
    · intro m hm
      have h1 := List.mem_of_mem_take hm
      exact ((List.perm_insertionSort mealLe ms).mem_iff).mp h1
    · intro h
      constructor
      · simp [List.length_take, hlen]
        omega
      · simp only [if_pos h]
    · intro h
      have : ¬(10 < ms.length) := by omega
      simp only [if_neg this]

/-- Witness for C8 at 15 distinct recipes and at the empty list. -/
theorem c8_display_truncation_witness :
    (displayMeals demoMeals15).shown.length = 10 ∧
    (displayMeals demoMeals15).moreCount = some 5 ∧
    displayMeals [] = ⟨true, [], none⟩ :=
  ⟨((c8_display_truncation demoMeals15).2.2.2.2.1 (by decide)).1,
    ((c8_display_truncation demoMeals15).2.2.2.2.1 (by decide)).2,
    (c8_display_truncation []).1 rfl⟩

/-- The heap-level and value-level embeddings of displayMeals print the
same output. -/
theorem displayMealsH_fst (s : HState) (r : Nat) :
    (displayMealsH s r).1 = displayMeals (s.store r) := by
  unfold displayMealsH displayMeals halloc hwrite
  by_cases h0 : (s.store r).length = 0
  · rw [if_pos h0, if_pos h0]
  · rw [if_neg h0, if_neg h0]
    simp

/-- C10: displayMeals never mutates its input array: sorting and
truncation happen on the copy made by slice(), so after display every
allocated reference, in particular the argument, still holds the same
list. -/
theorem c10_display_no_mutation (s : HState) (r : Nat) (h : r < s.next) :
    ((displayMealsH s r).2).store r = s.store r := by
  unfold displayMealsH
  by_cases h0 : (s.store r).length = 0
  · rw [if_pos h0]
  · rw [if_neg h0]
    simp only [halloc, hwrite]
    have hr : r ≠ s.next := by omega
    simp [hr]

/-- Witness for C10 at a one-element store. -/
theorem c10_display_no_mutation_witness :
    ((displayMealsH ⟨fun _ => [⟨[49], [65], []⟩], 1⟩ 0).2).store 0 =
      [⟨[49], [65], []⟩] :=
  c10_display_no_mutation ⟨fun _ => [⟨[49], [65], []⟩], 1⟩ 0 (by decide)

/-- C3 (amended): every failure raised during a cycle (any validation
kind, or a lookup failure, which aborts the remaining fetches) is caught
by main's try/catch and reported, and the cycle's partial results are
discarded; but control does NOT return to the prompt: after the catch
block main returns, so the process terminates.  A new cycle starts only
after a fully successful cycle when the user answers y or yes. -/
theorem c3_failure_caught_terminates (input : JStr)
    (lookup : JStr → Except JStr (List Meal)) (again : JStr) :
    (∀ e, validateIngredients (parseIngredients input) = Except.error e →
      runCycle input lookup again = ⟨some (CycleError.validation e), false⟩) ∧
    (∀ msg, validateIngredients (parseIngredients input) = Except.ok () →
      fetchAll lookup (parseIngredients input) = Except.error msg →
      runCycle input lookup again = ⟨some (CycleError.lookup msg), false⟩) ∧
    ((runCycle input lookup again).caught ≠ none →
      (runCycle input lookup again).searchAgain = false) := by
  refine ⟨?_, ?_, ?_⟩
  · intro e he
    simp only [runCycle, he]
  · intro msg hok hf
    simp only [runCycle, hok, hf]
  · intro hc
    cases hv : validateIngredients (parseIngredients input) with
    | error e => simp only [runCycle, hv]
    | ok u =>
      cases u
      cases hf : fetchAll lookup (parseIngredients input) with
      | error msg => simp only [runCycle, hv, hf]
      | ok mealLists =>
        exfalso
        apply hc
        simp only [runCycle, hv, hf]

/-- Witness for C3 (amended) at a failing lookup. -/
theorem c3_failure_caught_terminates_witness :
    runCycle (jstr "rice") (fun _ => Except.error (jstr "boom")) (jstr "y") =
      ⟨some (CycleError.lookup (jstr "boom")), false⟩ :=
  (c3_failure_caught_terminates (jstr "rice")
      (fun _ => Except.error (jstr "boom")) (jstr "y")).2.1
    (jstr "boom") (by decide) (by decide)

/-- Counterexample to C3 as stated: on empty input the cycle fails with
EmptyIngredientList; the failure is caught, but the session does not
return to the prompt — no new cycle starts even though the user would
have answered y, so the failure terminates the process. -/
theorem c3_counterexample :
    (runCycle (jstr "") (fun _ => Except.ok []) (jstr "y")).caught =
      some (CycleError.validation VError.emptyIngredientList) ∧
    (runCycle (jstr "") (fun _ => Except.ok []) (jstr "y")).searchAgain = false := by
  decide
